import Mathlib

set_option maxHeartbeats 1000000
set_option maxRecDepth 10000

/-!
Shallow embedding of the mayanfest repository (src/diskinterface.hpp,
src/diskinterface.cpp, src/filesystem.hpp).

Bytes are modelled as `Nat` values below 256 (the C++ `Byte` is `uint8_t`);
stores into a byte location carry an explicit `% 256` mirroring the
truncation performed by a `uint8_t` assignment.  Chunk buffers are lists of
bytes, the disk backing buffer is chunk-granular (every `memcpy` in the
source moves whole chunks).  Fallible operations return `Except`.
-/

/-- Error kinds thrown as `DiskException` in diskinterface.cpp. -/
inductive DiskErr where
  | outOfBounds
  | stillReferenced
deriving DecidableEq

/-- State of a `Disk` (diskinterface.hpp).  `data` is the backing buffer,
chunk-granular.  `cache` models the `SharedObjectCache<Size, Chunk>`: a live
entry holds the in-memory bytes of the checked-out `Chunk` together with the
number of outstanding `shared_ptr` references; `none` is an absent or expired
entry.  `flushCount` counts the calls to `Disk::flush_chunk`, which the
source performs only from `Chunk::~Chunk`. -/
structure Disk where
  chunkCount : Nat
  chunkSize : Nat
  data : Nat → List Nat
  cache : Nat → Option (List Nat × Nat)
  flushCount : Nat

/-- Embeds `Disk::get_chunk` (diskinterface.cpp:12-35).  The source rejects an index
with `chunk_idx > this->size_chunks()` (note: strict `>`); on a cache hit it
returns the shared live chunk, otherwise it copies the chunk bytes out of the
backing buffer into a fresh cache entry with one reference. -/
def Disk.get_chunk (s : Disk) (idx : Nat) : Except DiskErr (Disk × List Nat) :=
  if s.chunkCount < idx then
    .error .outOfBounds
  else
    match s.cache idx with
    | some (bs, rc) =>
        .ok ({ s with cache := fun j => if j = idx then some (bs, rc + 1) else s.cache j }, bs)
    | none =>
        let bs := s.data idx
        .ok ({ s with cache := fun j => if j = idx then some (bs, 1) else s.cache j }, bs)

/-- Embeds `Disk::flush_chunk` (diskinterface.cpp:37-45): copy the chunk bytes back
into the backing buffer at its index. -/
def Disk.flush_chunk (s : Disk) (idx : Nat) (bs : List Nat) : Disk :=
  { s with data := fun j => if j = idx then bs else s.data j,
           flushCount := s.flushCount + 1 }

/-- A caller mutating the bytes of a checked-out chunk through its
`data` pointer (the chunk buffer lives in the cache entry while
references are outstanding). -/
def Disk.chunk_write (s : Disk) (idx : Nat) (b : List Nat) : Disk :=
  match s.cache idx with
  | some (_, rc) => { s with cache := fun j => if j = idx then some (b, rc) else s.cache j }
  | none => s

/-- Dropping one `shared_ptr` reference to the chunk at `idx`.  When the last
reference goes, `Chunk::~Chunk` (diskinterface.cpp:6-10) runs and flushes the
chunk through `Disk::flush_chunk`; the weak cache entry then expires. -/
def Disk.release_chunk (s : Disk) (idx : Nat) : Disk :=
  match s.cache idx with
  | some (bs, rc) =>
      if rc ≤ 1 then
        { s.flush_chunk idx bs with cache := fun j => if j = idx then none else s.cache j }
      else
        { s with cache := fun j => if j = idx then some (bs, rc - 1) else s.cache j }
  | none => s

/-- A range of bit indices (diskinterface.hpp, `DiskBitMap::BitRange`),
default-initialized to zero as in the source. -/
structure BitRange where
  start_idx : Nat := 0
  bit_count : Nat := 0
deriving DecidableEq

/-- Embeds `std::bitset<8> byte(idx)` element access.  `byte[j]` is bit `j` of the
stored value.  The underlying storage of `std::bitset<8>` is a machine word
holding `idx`, so the (out-of-range, undefined-behaviour) access `byte[8]`
reads bit 8 of that word, which is 0 for `idx < 256`; `Nat.testBit` models
exactly this. -/
def bitsetGet (v j : Nat) : Bool := v.testBit j

/-- The inner `while (!byte[j + k] && j + k < 8) { k++; }` of
`bitmap_init_cache` (diskinterface.cpp:68-71).  Returns the final `k`
together with a flag recording whether any evaluation of the condition
accessed a bitset element at an index `≥ 8` (the element access happens
before the `j + k < 8` test).  Fuel 8 suffices: starting from `k = 1` the
condition is evaluated at most 8 times. -/
def scanRun (v j : Nat) : Nat → Nat → Nat × Bool
  | 0, k => (k, false)
  | fuel + 1, k =>
      if bitsetGet v (j + k) = false ∧ j + k < 8 then
        let r := scanRun v j fuel (k + 1)
        (r.1, decide (8 ≤ j + k) || r.2)
      else
        (k, decide (8 ≤ j + k))

/-- The outer `for (Size j = 0; j < 8; ++j) if (!byte[j]) ...` of
`bitmap_init_cache`: index of the first unset bit of the byte, if any. -/
def firstUnset (v : Nat) : Option Nat := (List.range 8).find? (fun j => ! bitsetGet v j)

/-- The entry `bitmap_init_cache` (diskinterface.cpp:61-78) computes for the
byte value `v`: start of the first unset-bit run and its length as measured
by the `while` loop.  A byte with no unset bit keeps the default-initialized
`BitRange` of the static array. -/
def bitmap_cache_entry (v : Nat) : BitRange :=
  match firstUnset v with
  | none => {}
  | some j => { start_idx := j, bit_count := (scanRun v j 8 1).1 }

/-- Whether computing the cache entry for byte value `v` performs an
out-of-range bitset access (index ≥ 8). -/
def bitmap_cache_entry_oor (v : Nat) : Bool :=
  match firstUnset v with
  | none => false
  | some j => (scanRun v j 8 1).2

/-- Embeds `DiskBitMap::find_unset_cache[b]` — the precomputed 256-entry table,
memoizing `bitmap_cache_entry` on byte values. -/
def find_unset_cache (b : Nat) : BitRange := bitmap_cache_entry b

/-- Embeds `DiskBitMap` (diskinterface.hpp:134-233).  The backing chunks are held
checked out for the bitmap's lifetime; `chunkSize` is `disk->chunk_size()`. -/
structure DiskBitMap where
  chunkSize : Nat
  sizeInBits : Nat
  chunks : List (List Nat)

/-- Embeds `DiskBitMap::size_bytes` (diskinterface.hpp:176-179); the source comment
says "add an extra byte which will be used for padding" and the code adds 2. -/
def DiskBitMap.size_bytes (bm : DiskBitMap) : Nat := bm.sizeInBits / 8 + 2

/-- Embeds `DiskBitMap::size_chunks` (diskinterface.hpp:181-183). -/
def DiskBitMap.size_chunks (bm : DiskBitMap) : Nat := bm.size_bytes / bm.chunkSize + 1

/-- Embeds `DiskBitMap::get_byte_for_idx` (diskinterface.hpp:185-195): the byte
holding bit `idx`, found as byte `(idx/8) % chunk_size` of chunk
`(idx/8) / chunk_size`. -/
def DiskBitMap.get_byte_for_idx (bm : DiskBitMap) (idx : Nat) : Nat :=
  let byteIdx := idx / 8
  (bm.chunks.getD (byteIdx / bm.chunkSize) []).getD (byteIdx % bm.chunkSize) 0

/-- Writing back through the `Byte&` returned by `get_byte_for_idx`. -/
def DiskBitMap.put_byte_for_idx (bm : DiskBitMap) (idx v : Nat) : DiskBitMap :=
  let byteIdx := idx / 8
  let chunk := (bm.chunks.getD (byteIdx / bm.chunkSize) []).set (byteIdx % bm.chunkSize) v
  { bm with chunks := bm.chunks.set (byteIdx / bm.chunkSize) chunk }

/-- Embeds `DiskBitMap::get` (diskinterface.hpp:197-200): `byte & (1 << (idx % 8))`. -/
def DiskBitMap.get (bm : DiskBitMap) (idx : Nat) : Bool :=
  bm.get_byte_for_idx idx &&& (1 <<< (idx % 8)) != 0

/-- Embeds `DiskBitMap::set` (diskinterface.hpp:202-205): `byte |= 1 << (idx % 8)`;
the store into the `uint8_t` truncates mod 256. -/
def DiskBitMap.set (bm : DiskBitMap) (idx : Nat) : DiskBitMap :=
  bm.put_byte_for_idx idx ((bm.get_byte_for_idx idx ||| (1 <<< (idx % 8))) % 256)

/-- Embeds `DiskBitMap::clr` (diskinterface.hpp:207-210): `byte &= ~(1 << (idx % 8))`;
for a byte value below 256 the int-width complement mask acts as
`255 ^^^ (1 <<< (idx % 8))`, and the store truncates mod 256. -/
def DiskBitMap.clr (bm : DiskBitMap) (idx : Nat) : DiskBitMap :=
  bm.put_byte_for_idx idx ((bm.get_byte_for_idx idx &&& (255 ^^^ (1 <<< (idx % 8)))) % 256)

/-- The scan loop of `DiskBitMap::find_unset_bits` (diskinterface.cpp:86-107):
`for (idx = 0; idx < size_in_bits; idx += 8)`, looking each byte up in the
256-entry cache, continuing an accumulated run only when the byte's run
starts exactly where the accumulated one ends, and breaking once `length`
bits are accumulated.  `fuel` bounds the remaining iterations; the caller
passes enough fuel that it never runs out before `idx < size_in_bits` fails. -/
def find_unset_go (bm : DiskBitMap) (length : Nat) : Nat → Nat → BitRange → BitRange
  | 0, _, retval => retval
  | fuel + 1, idx, retval =>
      if idx < bm.sizeInBits then
        let res0 := find_unset_cache (bm.get_byte_for_idx idx)
        let res : BitRange := { start_idx := res0.start_idx + idx, bit_count := res0.bit_count }
        if retval.bit_count ≠ 0 ∧ res.start_idx ≠ retval.start_idx + retval.bit_count then
          retval
        else if res.bit_count ≠ 0 then
          let retval' := if retval.bit_count = 0 then res
                         else { retval with bit_count := retval.bit_count + res.bit_count }
          if length ≤ retval'.bit_count then retval'
          else find_unset_go bm length fuel (idx + 8) retval'
        else
          find_unset_go bm length fuel (idx + 8) retval
      else retval

/-- The final clamp of `find_unset_bits` (diskinterface.cpp:109-112). -/
def clampLen (length : Nat) (r : BitRange) : BitRange :=
  if length < r.bit_count then { r with bit_count := length } else r

/-- Embeds `DiskBitMap::find_unset_bits` (diskinterface.cpp:82-115). -/
def DiskBitMap.find_unset_bits (bm : DiskBitMap) (length : Nat) : BitRange :=
  clampLen length (find_unset_go bm length (bm.sizeInBits / 8 + 1) 0 {})

/-!
Embedding of the filesystem.hpp draft.  Its own `DiskBitMap` stores bits in
the bytes of checked-out chunks exactly like the diskinterface one; here the
chunk-indexed byte lookup `chunks[byte_idx / chunk_size]->data[byte_idx %
chunk_size]` is modelled as a flat byte store indexed by `byte_idx`, which
preserves byte addressing exactly.  The inode records of a chunk are a
packed array of fixed-size records; the `memcpy` of a whole record at byte
offset `sizeof(INode) * chunk_offset` is modelled as indexing a record store
by `(chunk index, slot)`.  Every `get_chunk`/release pair inside one table
operation collapses to a direct access of the backing store (the chunk is
copied out, touched, and flushed back on release before the next access). -/

/-- Error kinds thrown as `FileSystemException` in filesystem.hpp. -/
inductive FsErr where
  | outOfRange
  | notInUse
deriving DecidableEq

/-- Embeds `DiskBitMap::get` of the filesystem.hpp draft (lines 49-54):
`byte & (1 << (idx % 8))` on byte `idx / 8`. -/
def fsBitGet (bits : Nat → Nat) (idx : Nat) : Bool :=
  bits (idx / 8) &&& (1 <<< (idx % 8)) != 0

/-- Embeds `DiskBitMap::set` of the filesystem.hpp draft (lines 56-61):
`data[...] = byte | (1 << (idx & 8))` — note `idx & 8`, not `idx % 8`; the
store into the `uint8_t` truncates mod 256. -/
def fsBitSet (bits : Nat → Nat) (idx : Nat) : Nat → Nat :=
  fun b => if b = idx / 8 then (bits (idx / 8) ||| (1 <<< (idx &&& 8))) % 256 else bits b

/-- Embeds `DiskBitMap::size_bytes` of the filesystem.hpp draft (lines 41-43). -/
def fs_size_bytes (sizeInBits : Nat) : Nat := sizeInBits / 8 + 1

/-- Embeds `DiskBitMap::size_chunks` of the filesystem.hpp draft (lines 45-47):
`size_bytes() + 1`, with no reference to the disk's chunk size. -/
def fs_size_chunks (sizeInBits : Nat) : Nat := fs_size_bytes sizeInBits + 1

/-- Embeds `struct INode` (filesystem.hpp:102-111): the fixed-size metadata record.
All fields are zero-initialized in the source. -/
structure INode where
  uid : Nat := 0
  lastModified : Nat := 0
  fileSize : Nat := 0
  referenceCount : Nat := 0
  directAddresses : List Nat := [0, 0, 0, 0, 0, 0, 0, 0]
  indirectAddress : Nat := 0
  doubleIndirectAddress : Nat := 0
  inodeBits : Nat := 0
deriving DecidableEq

instance : Inhabited INode := ⟨{}⟩

/-- Embeds `INode::read` (filesystem.hpp:114-123).  The source computes the chunk
number and the in-chunk byte offset, then branches on the addressing tier —
and both branch bodies are empty; the function body performs no chunk
access, no allocation, no mutation, and falls off the end without returning
a value.  The result models the (unchanged) inode together with the
(absent) return value. -/
def INode.read (chunkSize : Nat) (node : INode) (startingOffset _n : Nat) :
    INode × Option Nat :=
  let chunkNumber := startingOffset / chunkSize
  let _byteOffset := startingOffset % chunkSize
  if chunkNumber < 8 then
    (node, none)
  else if chunkNumber < 8 + chunkSize / 8 then
    (node, none)
  else
    (node, none)

/-- State of an `INodeTable` (filesystem.hpp:127-192): capacity, records per
chunk, the `used_inodes` bitmap's bytes, and the packed record store indexed
by chunk index and in-chunk slot. -/
structure INodeTable where
  inodeCount : Nat
  inodesPerChunk : Nat
  usedBits : Nat → Nat
  recs : Nat → Nat → INode

/-- Embeds `INodeTable::get_inode` (filesystem.hpp:161-173): out-of-range check,
usage-bit check, then a record copy from chunk `idx / inodes_per_chunk` at
slot `idx % inodes_per_chunk`. -/
def INodeTable.get_inode (t : INodeTable) (idx : Nat) : Except FsErr INode :=
  if t.inodeCount ≤ idx then .error .outOfRange
  else if fsBitGet t.usedBits idx = false then .error .notInUse
  else .ok (t.recs (idx / t.inodesPerChunk) (idx % t.inodesPerChunk))

/-- Embeds `INodeTable::set_inode` (filesystem.hpp:175-185): out-of-range check,
mark the usage bit via the draft bitmap's `set`, then `memcpy` a record into
chunk `idx / inodes_per_chunk` at slot `idx % inodes_per_chunk`.  The body
declares a fresh local `INode node;` that shadows the `node` parameter, so
the record actually serialized is this default-constructed local, never the
caller's record. -/
def INodeTable.set_inode (t : INodeTable) (idx : Nat) (_node : INode) :
    Except FsErr INodeTable :=
  if t.inodeCount ≤ idx then .error .outOfRange
  else
    let shadowed : INode := {}
    let recsAfter := fun c s =>
      if c = idx / t.inodesPerChunk ∧ s = idx % t.inodesPerChunk then shadowed
      else t.recs c s
    .ok { t with usedBits := fsBitSet t.usedBits idx, recs := recsAfter }

/-! Concrete fixtures used by the claim theorems and witnesses below. -/

/-- A 4-chunk, 2-bytes-per-chunk disk, zeroed, with an empty chunk cache. -/
def dC2 : Disk :=
  { chunkCount := 4, chunkSize := 2, data := fun _ => [0, 0], cache := fun _ => none,
    flushCount := 0 }

/-- A bitmap of 8 bits over 4-byte chunks (contents irrelevant to size
accounting). -/
def bmC5 : DiskBitMap := { chunkSize := 4, sizeInBits := 8, chunks := [[0, 0, 0], [0]] }

/-- An inode table of capacity 16, 4 records per chunk, freshly formatted:
usage bitmap all zero, all records default. -/
def tblC7 : INodeTable :=
  { inodeCount := 16, inodesPerChunk := 4, usedBits := fun _ => 0, recs := fun _ _ => {} }

/-- A non-default inode record. -/
def recC7 : INode := { uid := 7 }

/-- The state after the miss branch of `get_chunk` checks a chunk out: the
cache gains a single-reference entry holding the chunk's backing bytes. -/
def Disk.acquire (s : Disk) (idx : Nat) : Disk :=
  { s with cache := fun j => if j = idx then some (s.data idx, 1) else s.cache j }

/-- A 2-chunk zeroed disk with empty cache, for the C1 witness. -/
def dC1 : Disk :=
  { chunkCount := 2, chunkSize := 2, data := fun _ => [0, 0], cache := fun _ => none,
    flushCount := 0 }

/-- An inode table whose bitmap bytes are all 1 (bit 0 of every byte set),
for the C8 witness. -/
def tblC8 : INodeTable :=
  { inodeCount := 16, inodesPerChunk := 4, usedBits := fun _ => 1, recs := fun _ _ => {} }

/-- A well-formed bitmap over 2 chunks of 2 bytes, all bits clear. -/
def bmC6 : DiskBitMap := { chunkSize := 2, sizeInBits := 32, chunks := [[0, 0], [0, 0]] }

/-- An all-zero bitmap of 4 bits over 1-byte chunks (the three chunks the
constructor would check out). -/
def bmC3 : DiskBitMap := { chunkSize := 1, sizeInBits := 4, chunks := [[0], [0], [0]] }

/-- An 8-bit bitmap whose only set bit is bit 0. -/
def bmC4 : DiskBitMap := { chunkSize := 1, sizeInBits := 8, chunks := [[1], [0], [0]] }

/-- A 16-bit bitmap over two 4-byte chunks whose only set bit is bit 9
(bit 1 of byte 1). -/
def bmC4w : DiskBitMap :=
  { chunkSize := 4, sizeInBits := 16, chunks := [[0, 2, 0, 0], [0, 0, 0, 0]] }

/-- C2: the claim states `Disk::get_chunk(idx)` fails with the OutOfBounds
error iff `idx ≥ chunk_count`.  The source checks `chunk_idx >
this->size_chunks()` instead, so the off-by-one index `idx = chunk_count`
is accepted: on a 4-chunk disk, `get_chunk 4` succeeds (in the C++ this then
`memcpy`s `chunk_size` bytes starting at the very end of the backing
allocation) while `get_chunk 5` correctly fails. -/
theorem C2_get_chunk_bound_off_by_one :
    (∃ p, dC2.get_chunk 4 = Except.ok p) ∧ dC2.chunkCount = 4 ∧
      dC2.get_chunk 5 = Except.error DiskErr.outOfBounds :=
  ⟨⟨_, rfl⟩, rfl, rfl⟩

/-- C5 counterexample: the diskinterface `DiskBitMap::size_bytes` of an
8-bit bitmap is 3, not `8 / 8 + 1 = 2` as the claim states. -/
theorem C5_size_bytes_cex : bmC5.size_bytes ≠ bmC5.sizeInBits / 8 + 1 := by decide

/-- C5 (amended): the diskinterface `DiskBitMap` has
`size_bytes() = size_in_bits/8 + 2` (two bytes of padding, never the
claimed `+ 1`) and `size_chunks() = size_bytes()/chunk_size + 1`; the
filesystem.hpp draft has `size_bytes() = size_in_bits/8 + 1` but its
`size_chunks() = size_bytes() + 1` does not involve the chunk size. -/
theorem C5_size_accounting (bm : DiskBitMap) (n : Nat) :
    bm.size_bytes = bm.sizeInBits / 8 + 2 ∧
      bm.size_chunks = bm.size_bytes / bm.chunkSize + 1 ∧
      bm.size_bytes ≠ bm.sizeInBits / 8 + 1 ∧
      fs_size_bytes n = n / 8 + 1 ∧
      fs_size_chunks n = fs_size_bytes n + 1 := by
  refine ⟨rfl, rfl, ?_, rfl, rfl⟩
  simp only [DiskBitMap.size_bytes]
  omega

/-- C7: the claimed `set_inode`/`get_inode` round trip fails.  On a freshly
formatted table, `set_inode 1 recC7` marks bit 0 of byte 0 instead of bit 1
(the draft bitmap `set` shifts by `idx & 8`), so `get_inode 1` fails with
the NotInUse error; and `set_inode 0 recC7` serializes the shadowing local
`INode node;` of the source, so `get_inode 0` returns the default record,
never `recC7`. -/
theorem C7_set_get_inode_broken :
    (tblC7.set_inode 1 recC7).bind (fun t => t.get_inode 1) = .error .notInUse ∧
      (tblC7.set_inode 0 recC7).bind (fun t => t.get_inode 0) = .ok ({} : INode) ∧
      ({} : INode) ≠ recC7 :=
  ⟨rfl, rfl, by decide⟩

/-- C9: `INode::read` is an empty stub: for every inode, offset and count it
leaves the record (in particular every address) unchanged and performs no
allocation; at the claim's failing input — a read at offset `8 * chunk_size
= 512` with `chunk_size = 64` on an inode whose indirect pointer is zero —
the indirect pointer is still zero after the read, and no value is
returned. -/
theorem C9_read_is_stub :
    (∀ chunkSize node startingOffset n,
        (INode.read chunkSize node startingOffset n).1 = node ∧
          (INode.read chunkSize node startingOffset n).2 = none) ∧
      (INode.read 64 {} 512 10).1.indirectAddress = 0 := by
  refine ⟨fun chunkSize node startingOffset n => ?_, by decide⟩
  constructor <;> · simp only [INode.read]; split <;> simp

/-- C10: the claim that every bitset access of `bitmap_init_cache` is in
range (index < 8) is violated: for byte value 0 (first unset run reaching
bit 7) the inner while loop evaluates `byte[8]` — one past the end of the
`std::bitset<8>` — before testing `j + k < 8`, as recorded by the
access-tracking embedding; the computed entry is `{0, 8}`.  For a byte such
as 255 (no unset bit) or 128 (run stopped by the set bit 7) no out-of-range
access happens. -/
theorem C10_init_cache_oob_access :
    bitmap_cache_entry_oor 0 = true ∧
      bitmap_cache_entry 0 = { start_idx := 0, bit_count := 8 } ∧
      bitmap_cache_entry_oor 255 = false ∧
      bitmap_cache_entry_oor 128 = false := by decide

/-- A cache miss on an index the source accepts copies the chunk out of the
backing buffer into a fresh single-reference cache entry. -/
theorem get_chunk_miss (s : Disk) (idx : Nat) (h1 : ¬ s.chunkCount < idx)
    (h2 : s.cache idx = none) :
    s.get_chunk idx = .ok (s.acquire idx, s.data idx) := by
  simp [Disk.get_chunk, Disk.acquire, h1, h2]

/-- C1: flush-on-release round trip.  From a state whose cache has no live
entry at a valid index `idx`, checking the chunk out, overwriting its bytes
with `b`, and dropping the single reference leads to a state from which
`get_chunk idx` returns the bytes `b`; the flush counter is untouched by the
checkout and the write, increases exactly at the release, and the re-fetch
performs no further flush. -/
theorem C1_flush_on_release_round_trip (s : Disk) (idx : Nat) (b : List Nat)
    (h1 : idx < s.chunkCount) (h2 : s.cache idx = none)
    (h3 : b.length = s.chunkSize) :
    ∃ s1, s.get_chunk idx = .ok (s1, s.data idx) ∧
      s1.flushCount = s.flushCount ∧
      (s1.chunk_write idx b).flushCount = s.flushCount ∧
      ((s1.chunk_write idx b).release_chunk idx).flushCount = s.flushCount + 1 ∧
      ∃ s2, ((s1.chunk_write idx b).release_chunk idx).get_chunk idx = .ok (s2, b) ∧
        s2.flushCount = s.flushCount + 1 := by
  have hlt : ¬ s.chunkCount < idx := by omega
  have hc : (((s.acquire idx).chunk_write idx b).release_chunk idx).cache idx = none := by
    simp [Disk.acquire, Disk.chunk_write, Disk.release_chunk, Disk.flush_chunk]
  have hcc : ¬ (((s.acquire idx).chunk_write idx b).release_chunk idx).chunkCount < idx := by
    simpa [Disk.acquire, Disk.chunk_write, Disk.release_chunk, Disk.flush_chunk] using hlt
  have hd : (((s.acquire idx).chunk_write idx b).release_chunk idx).data idx = b := by
    simp [Disk.acquire, Disk.chunk_write, Disk.release_chunk, Disk.flush_chunk]
  have e2 := get_chunk_miss _ idx hcc hc
  rw [hd] at e2
  refine ⟨s.acquire idx, get_chunk_miss s idx hlt h2, rfl, ?_, ?_, _, e2, ?_⟩
  · simp [Disk.acquire, Disk.chunk_write]
  · simp [Disk.acquire, Disk.chunk_write, Disk.release_chunk, Disk.flush_chunk]
  · simp [Disk.acquire, Disk.chunk_write, Disk.release_chunk, Disk.flush_chunk]

/-- C1 witness at a concrete disk, index and byte string. -/
theorem C1_witness :
    ∃ s1, dC1.get_chunk 0 = .ok (s1, dC1.data 0) ∧
      s1.flushCount = dC1.flushCount ∧
      (s1.chunk_write 0 [5, 6]).flushCount = dC1.flushCount ∧
      ((s1.chunk_write 0 [5, 6]).release_chunk 0).flushCount = dC1.flushCount + 1 ∧
      ∃ s2, ((s1.chunk_write 0 [5, 6]).release_chunk 0).get_chunk 0 = .ok (s2, [5, 6]) ∧
        s2.flushCount = dC1.flushCount + 1 :=
  C1_flush_on_release_round_trip dC1 0 [5, 6] (by decide) rfl rfl

/-- C8: `INodeTable::get_inode` fails with the OutOfRange error exactly when
`idx ≥ inode_count`, otherwise fails with the NotInUse error exactly when
the usage bit of `idx` is clear, and otherwise returns the record stored in
chunk `idx / inodes_per_chunk` at slot `idx % inodes_per_chunk`. -/
theorem C8_get_inode_errors (t : INodeTable) (idx : Nat) :
    (t.get_inode idx = .error .outOfRange ↔ t.inodeCount ≤ idx) ∧
      (t.get_inode idx = .error .notInUse ↔
        idx < t.inodeCount ∧ fsBitGet t.usedBits idx = false) ∧
      (idx < t.inodeCount → fsBitGet t.usedBits idx = true →
        t.get_inode idx = .ok (t.recs (idx / t.inodesPerChunk) (idx % t.inodesPerChunk))) := by
  unfold INodeTable.get_inode
  split_ifs with h1 h2
  · exact ⟨iff_of_true rfl h1, by simp; omega, by omega⟩
  · refine ⟨by simp; omega, iff_of_true rfl ⟨by omega, h2⟩, ?_⟩
    intro _ hbit
    rw [h2] at hbit
    cases hbit
  · exact ⟨by simp; omega, by simp [h2], fun _ _ => rfl⟩

/-- C8 witness: a successful in-range, in-use lookup and an out-of-range
failure at concrete inputs. -/
theorem C8_witness :
    tblC8.get_inode 0 = .ok (tblC8.recs 0 0) ∧
      tblC8.get_inode 20 = .error .outOfRange :=
  ⟨(C8_get_inode_errors tblC8 0).2.2 (by decide) (by decide),
    (C8_get_inode_errors tblC8 20).1.mpr (by decide)⟩

/-- Setting a bit then testing it through the byte operations of the source:
the freshly written byte has the requested bit set. -/
lemma bitfact_set_self : ∀ x < 256, ∀ k < 8,
    (((x ||| (1 <<< k)) % 256) &&& (1 <<< k) != 0) = true := by decide

/-- Setting a bit leaves every other bit position of the byte unchanged. -/
lemma bitfact_set_other : ∀ x < 256, ∀ k < 8, ∀ l < 8, k ≠ l →
    (((x ||| (1 <<< k)) % 256) &&& (1 <<< l) != 0) = (x &&& (1 <<< l) != 0) := by decide

/-- Clearing a bit then testing it: the bit is clear. -/
lemma bitfact_clr_self : ∀ x < 256, ∀ k < 8,
    (((x &&& (255 ^^^ (1 <<< k))) % 256) &&& (1 <<< k) != 0) = false := by decide

/-- Clearing a bit leaves every other bit position of the byte unchanged. -/
lemma bitfact_clr_other : ∀ x < 256, ∀ k < 8, ∀ l < 8, k ≠ l →
    (((x &&& (255 ^^^ (1 <<< k))) % 256) &&& (1 <<< l) != 0) = (x &&& (1 <<< l) != 0) := by
  decide

/-- Reading back an in-range list update at the updated position. -/
lemma getD_set_eq {α : Type} (l : List α) (i : Nat) (a d : α) (h : i < l.length) :
    (l.set i a).getD i d = a := by
  induction l generalizing i with
  | nil => simp at h
  | cons x xs ih =>
      cases i with
      | zero => rfl
      | succ n => simpa using ih n (by simpa using h)

/-- Reading back a list update at any other position. -/
lemma getD_set_ne {α : Type} (l : List α) (i j : Nat) (a d : α) (h : i ≠ j) :
    (l.set i a).getD j d = l.getD j d := by
  induction l generalizing i j with
  | nil => simp
  | cons x xs ih =>
      cases i with
      | zero => cases j with
        | zero => exact absurd rfl h
        | succ m => rfl
      | succ n => cases j with
        | zero => rfl
        | succ m => simpa using ih n m (by omega)

/-- An in-range `getD` lookup is a member of the list. -/
lemma getD_mem {α : Type} (l : List α) (n : Nat) (d : α) (h : n < l.length) :
    l.getD n d ∈ l := by
  induction l generalizing n with
  | nil => simp at h
  | cons x xs ih =>
      cases n with
      | zero => simp
      | succ m =>
          have := ih m (by simpa using h)
          simp only [List.getD_cons_succ]
          exact List.mem_cons_of_mem _ this

/-- Bit indices in the same byte read the same backing byte. -/
lemma get_byte_congr (bm : DiskBitMap) (i j : Nat) (h : j / 8 = i / 8) :
    bm.get_byte_for_idx j = bm.get_byte_for_idx i := by
  simp only [DiskBitMap.get_byte_for_idx, h]

/-- Writing a byte and reading it back through an index of the same byte. -/
lemma get_byte_put_same (bm : DiskBitMap) (i j v : Nat) (hcs : 0 < bm.chunkSize)
    (hin : i / 8 / bm.chunkSize < bm.chunks.length)
    (hlen : (bm.chunks.getD (i / 8 / bm.chunkSize) []).length = bm.chunkSize)
    (hb : j / 8 = i / 8) :
    (bm.put_byte_for_idx i v).get_byte_for_idx j = v := by
  simp only [DiskBitMap.get_byte_for_idx, DiskBitMap.put_byte_for_idx, hb]
  rw [getD_set_eq _ _ _ _ hin]
  rw [getD_set_eq]
  rw [hlen]
  exact Nat.mod_lt _ hcs

/-- Writing a byte leaves the bytes of all other indices unchanged, whether
they live in the same chunk or a different one. -/
lemma get_byte_put_other (bm : DiskBitMap) (i j v : Nat)
    (hin : i / 8 / bm.chunkSize < bm.chunks.length)
    (hb : j / 8 ≠ i / 8) :
    (bm.put_byte_for_idx i v).get_byte_for_idx j = bm.get_byte_for_idx j := by
  simp only [DiskBitMap.get_byte_for_idx, DiskBitMap.put_byte_for_idx]
  by_cases hc : j / 8 / bm.chunkSize = i / 8 / bm.chunkSize
  · rw [hc, getD_set_eq _ _ _ _ hin]
    rw [getD_set_ne]
    intro he
    apply hb
    have hi8 := Nat.div_add_mod (i / 8) bm.chunkSize
    have hj8 := Nat.div_add_mod (j / 8) bm.chunkSize
    rw [hc] at hj8
    omega
  · rw [getD_set_ne]
    exact fun he => hc he.symm

/-- C6: bit numbering is least-significant-bit-first and byte addressing
spans chunks transparently.  On a well-formed bitmap (chunks of the right
length, bytes below 256, enough chunks to cover `size_in_bits`), `set i`
makes `get i` true, `clr i` makes `get i` false, and both leave `get j`
unchanged for every other in-range index `j` — whether `j` lies in the same
byte, another byte of the same chunk, or another chunk. -/
theorem C6_lsb_first_bit_ops (bm : DiskBitMap) (i j : Nat) (hcs : 0 < bm.chunkSize)
    (hlen : ∀ c ∈ bm.chunks, c.length = bm.chunkSize)
    (hbytes : ∀ c ∈ bm.chunks, ∀ b ∈ c, b < 256)
    (hcover : bm.sizeInBits ≤ 8 * (bm.chunkSize * bm.chunks.length))
    (hi : i < bm.sizeInBits) (hj : j < bm.sizeInBits) (hne : j ≠ i) :
    (bm.set i).get i = true ∧ (bm.set i).get j = bm.get j ∧
      (bm.clr i).get i = false ∧ (bm.clr i).get j = bm.get j := by
  have hin : i / 8 / bm.chunkSize < bm.chunks.length := by
    apply Nat.div_lt_of_lt_mul
    apply Nat.div_lt_of_lt_mul
    calc i < bm.sizeInBits := hi
    _ ≤ 8 * (bm.chunkSize * bm.chunks.length) := hcover
  have hmem : bm.chunks.getD (i / 8 / bm.chunkSize) [] ∈ bm.chunks := getD_mem _ _ _ hin
  have hlenI : (bm.chunks.getD (i / 8 / bm.chunkSize) []).length = bm.chunkSize := hlen _ hmem
  have hxlt : bm.get_byte_for_idx i < 256 := by
    apply hbytes _ hmem
    apply getD_mem
    rw [hlenI]
    exact Nat.mod_lt _ hcs
  have hk : i % 8 < 8 := Nat.mod_lt _ (by omega)
  have hl : j % 8 < 8 := Nat.mod_lt _ (by omega)
  refine ⟨?_, ?_, ?_, ?_⟩
  · show ((bm.set i).get_byte_for_idx i &&& (1 <<< (i % 8)) != 0) = true
    rw [DiskBitMap.set, get_byte_put_same _ _ _ _ hcs hin hlenI rfl]
    exact bitfact_set_self _ hxlt _ hk
  · by_cases hb : j / 8 = i / 8
    · show ((bm.set i).get_byte_for_idx j &&& (1 <<< (j % 8)) != 0) = _
      rw [DiskBitMap.set, get_byte_put_same _ _ _ _ hcs hin hlenI hb,
        DiskBitMap.get, get_byte_congr _ _ _ hb]
      apply bitfact_set_other _ hxlt _ hk _ hl
      omega
    · show ((bm.set i).get_byte_for_idx j &&& (1 <<< (j % 8)) != 0) = _
      rw [DiskBitMap.set, get_byte_put_other _ _ _ _ hin hb, DiskBitMap.get]
  · show ((bm.clr i).get_byte_for_idx i &&& (1 <<< (i % 8)) != 0) = false
    rw [DiskBitMap.clr, get_byte_put_same _ _ _ _ hcs hin hlenI rfl]
    exact bitfact_clr_self _ hxlt _ hk
  · by_cases hb : j / 8 = i / 8
    · show ((bm.clr i).get_byte_for_idx j &&& (1 <<< (j % 8)) != 0) = _
      rw [DiskBitMap.clr, get_byte_put_same _ _ _ _ hcs hin hlenI hb,
        DiskBitMap.get, get_byte_congr _ _ _ hb]
      apply bitfact_clr_other _ hxlt _ hk _ hl
      omega
    · show ((bm.clr i).get_byte_for_idx j &&& (1 <<< (j % 8)) != 0) = _
      rw [DiskBitMap.clr, get_byte_put_other _ _ _ _ hin hb, DiskBitMap.get]

/-- C6 witness at a concrete bitmap: index 17 lives in the second chunk,
index 3 in the first. -/
theorem C6_witness :
    (bmC6.set 17).get 17 = true ∧ (bmC6.set 17).get 3 = bmC6.get 3 ∧
      (bmC6.clr 17).get 17 = false ∧ (bmC6.clr 17).get 3 = bmC6.get 3 :=
  C6_lsb_first_bit_ops bmC6 17 3 (by decide) (by decide) (by decide) (by decide)
    (by decide) (by decide) (by decide)

/-- Evaluation of the final clamp on a run starting at 0. -/
lemma clampLen_retval (L x : Nat) :
    clampLen L { start_idx := 0, bit_count := x } = { start_idx := 0, bit_count := min L x } := by
  simp only [clampLen]
  split <;> · refine congrArg (BitRange.mk 0) ?_; omega

/-- Lookup-table entry for the all-zero byte. -/
lemma cache_zero : find_unset_cache 0 = { start_idx := 0, bit_count := 8 } := by decide

/-- Lookup-table entry for the byte with only bit 0 set. -/
lemma cache_one : find_unset_cache 1 = { start_idx := 1, bit_count := 7 } := by decide

/-- Lookup-table entry for a byte with a single set bit above position 0:
the unset run before the bit. -/
lemma cache_pow (p : Nat) (h1 : 1 ≤ p) (h2 : p < 8) :
    find_unset_cache (2 ^ p) = { start_idx := 0, bit_count := p } := by
  interval_cases p <;> decide

/-- Main loop invariant of `find_unset_bits` over an all-zero byte range:
starting at byte `i` with the run `{0, 8 i}` already accumulated (and the
requested length not yet reached), the clamped result of the remaining scan
is `{0, min L (8 ⌈N / 8⌉)}`. -/
lemma clamp_go_zero (bm : DiskBitMap) (L : Nat)
    (hz : ∀ i, 8 * i < bm.sizeInBits → bm.get_byte_for_idx (8 * i) = 0) :
    ∀ n i, (bm.sizeInBits + 7) / 8 ≤ i + n →
      (i = 0 ∨ (0 < i ∧ i ≤ (bm.sizeInBits + 7) / 8 ∧ 8 * i < L)) →
      clampLen L (find_unset_go bm L n (8 * i) { start_idx := 0, bit_count := 8 * i }) =
        { start_idx := 0, bit_count := min L (8 * ((bm.sizeInBits + 7) / 8)) } := by
  intro n
  induction n with
  | zero =>
      intro i h1 h2
      simp only [find_unset_go]
      rw [clampLen_retval]
      refine congrArg (BitRange.mk 0) ?_
      omega
  | succ n ih =>
      intro i h1 h2
      by_cases hN : 8 * i < bm.sizeInBits
      · simp only [find_unset_go, if_pos hN, hz i hN, cache_zero]
        have hr : (if 8 * i = 0 then ({ start_idx := 0 + 8 * i, bit_count := 8 } : BitRange)
            else { start_idx := 0, bit_count := 8 * i + 8 }) =
            { start_idx := 0, bit_count := 8 * i + 8 } := by
          split
          · next h => simp [h]
          · rfl
        rw [hr, if_neg (fun h => h.2 rfl), if_pos (show (8 : Nat) ≠ 0 by decide)]
        by_cases hL : L ≤ 8 * i + 8
        · rw [if_pos
            (show L ≤ ({ start_idx := 0, bit_count := 8 * i + 8 } : BitRange).bit_count from hL)]
          rw [clampLen_retval]
          refine congrArg (BitRange.mk 0) ?_
          omega
        · rw [if_neg
            (show ¬ L ≤ ({ start_idx := 0, bit_count := 8 * i + 8 } : BitRange).bit_count from hL)]
          have := ih (i + 1) (by omega) (Or.inr ⟨by omega, by omega, by omega⟩)
          rw [Nat.mul_succ] at this
          exact this
      · simp only [find_unset_go, if_neg hN]
        rw [clampLen_retval]
        refine congrArg (BitRange.mk 0) ?_
        omega

/-- C3 counterexample: on the all-zero 4-bit bitmap a request of 10 bits
returns `{0, 8}` — a whole byte, past bit `N - 1 = 3` — and not
`{0, min 10 4} = {0, 4}` as the claim states. -/
theorem C3_cex :
    bmC3.find_unset_bits 10 = { start_idx := 0, bit_count := 8 } ∧
      bmC3.find_unset_bits 10 ≠ { start_idx := 0, bit_count := min 10 bmC3.sizeInBits } := by
  decide

/-- C3 (amended): on a bitmap all of whose scanned bytes are zero,
`find_unset_bits length` returns `{0, min length (8 ⌈size_in_bits / 8⌉)}`:
the scan is whole-byte granular, so when `size_in_bits` is not a multiple of
8 the run may extend past bit `size_in_bits - 1` into the trailing partial
byte; it equals `{0, min length size_in_bits}` exactly when `8 ∣
size_in_bits`. -/
theorem C3_all_zero_scan (bm : DiskBitMap) (L : Nat)
    (hz : ∀ i, 8 * i < bm.sizeInBits → bm.get_byte_for_idx (8 * i) = 0) :
    bm.find_unset_bits L =
      { start_idx := 0, bit_count := min L (8 * ((bm.sizeInBits + 7) / 8)) } := by
  unfold DiskBitMap.find_unset_bits
  have h := clamp_go_zero bm L hz (bm.sizeInBits / 8 + 1) 0 (by omega) (Or.inl rfl)
  simpa using h

/-- C3 witness at the concrete all-zero 4-bit bitmap and length 10. -/
theorem C3_witness :
    bmC3.find_unset_bits 10 =
      { start_idx := 0, bit_count := min 10 (8 * ((bmC3.sizeInBits + 7) / 8)) } :=
  C3_all_zero_scan bmC3 10 (by
    intro i hi
    have h4 : bmC3.sizeInBits = 4 := rfl
    have h0 : i = 0 := by omega
    subst h0
    decide)

/-- Scanning the zero bytes before byte `b` only transports the loop there,
accumulating `{0, 8 b}`, provided the requested length is not reached. -/
lemma go_skip_zeros (bm : DiskBitMap) (L b : Nat)
    (hz : ∀ i, i < b → bm.get_byte_for_idx (8 * i) = 0)
    (hbL : 8 * b < L) (hbN : 8 * b < bm.sizeInBits) :
    ∀ d n i, i + d = b →
      find_unset_go bm L (d + n) (8 * i) { start_idx := 0, bit_count := 8 * i } =
        find_unset_go bm L n (8 * b) { start_idx := 0, bit_count := 8 * b } := by
  intro d
  induction d with
  | zero =>
      intro n i h
      have hib : i = b := by omega
      subst hib
      rw [Nat.zero_add]
  | succ d ih =>
      intro n i h
      have hib : i < b := by omega
      have hiN : 8 * i < bm.sizeInBits := by omega
      have hfuel : d + 1 + n = (d + n) + 1 := by omega
      rw [hfuel]
      simp only [find_unset_go, if_pos hiN, hz i hib, cache_zero]
      have hr : (if 8 * i = 0 then ({ start_idx := 0 + 8 * i, bit_count := 8 } : BitRange)
          else { start_idx := 0, bit_count := 8 * i + 8 }) =
          { start_idx := 0, bit_count := 8 * i + 8 } := by
        split
        · next hh => simp [hh]
        · rfl
      rw [hr, if_neg (fun hh => hh.2 rfl), if_pos (show (8 : Nat) ≠ 0 by decide)]
      rw [if_neg (show ¬ L ≤ ({ start_idx := 0, bit_count := 8 * i + 8 } : BitRange).bit_count
        by simp; omega)]
      have := ih n (i + 1) (by omega)
      rw [Nat.mul_succ] at this
      exact this

/-- Once the accumulated run ends strictly before the current byte, a zero
byte there (if the loop is even still running) breaks the scan immediately:
the accumulated run is final. -/
lemma go_stuck (bm : DiskBitMap) (L k m i : Nat)
    (hk : k ≠ 0) (hklt : k < 8 * i)
    (hbyte0 : 8 * i < bm.sizeInBits → bm.get_byte_for_idx (8 * i) = 0) :
    find_unset_go bm L m (8 * i) { start_idx := 0, bit_count := k } =
      { start_idx := 0, bit_count := k } := by
  cases m with
  | zero => rfl
  | succ m =>
      by_cases hN : 8 * i < bm.sizeInBits
      · simp only [find_unset_go, if_pos hN, hbyte0 hN, cache_zero]
        rw [if_pos]
        exact ⟨hk, by simp; omega⟩
      · simp only [find_unset_go, if_neg hN]

/-- C4 counterexample: with the single set bit at `k = 0` and length 4
(`k < length`), `find_unset_bits` returns `{1, 4}` — the run after the set
bit — not a run starting at 0 with `bit_count = k = 0` as the claim states
for every `k`. -/
theorem C4_cex :
    bmC4.find_unset_bits 4 = { start_idx := 1, bit_count := 4 } ∧
      bmC4.find_unset_bits 4 ≠ { start_idx := 0, bit_count := 0 } := by decide

/-- C4 (amended): on a bitmap whose bits are all clear except a single set
bit at position `k`, with `0 < k` (the claim's `k = 0` case fails),
`k < size_in_bits` and `k < length`, `find_unset_bits length` returns
`{start_idx := 0, bit_count := k}`: the run starts at 0 and stops exactly at
the set bit, for every such `k` — at the start of a byte, inside a byte, and
across chunk boundaries.  The byte hypotheses state exactly that bit `k` is
set and every other bit clear: byte `k / 8` holds `2 ^ (k % 8)` and every
other scanned byte is zero. -/
theorem C4_single_set_bit (bm : DiskBitMap) (k L : Nat)
    (hk0 : 0 < k) (hkN : k < bm.sizeInBits) (hkL : k < L)
    (hbyte : bm.get_byte_for_idx (8 * (k / 8)) = 2 ^ (k % 8))
    (hz : ∀ i, 8 * i < bm.sizeInBits → i ≠ k / 8 → bm.get_byte_for_idx (8 * i) = 0) :
    bm.find_unset_bits L = { start_idx := 0, bit_count := k } := by
  unfold DiskBitMap.find_unset_bits
  have hbN : 8 * (k / 8) < bm.sizeInBits := by omega
  have hbL : 8 * (k / 8) < L := by omega
  have hsplit : bm.sizeInBits / 8 + 1 = (k / 8) + ((bm.sizeInBits / 8 + 1) - k / 8) := by omega
  have hz1 : ∀ i, i < k / 8 → bm.get_byte_for_idx (8 * i) = 0 := by
    intro i hi
    exact hz i (by omega) (by omega)
  have h1 := go_skip_zeros bm L (k / 8) hz1 hbL hbN (k / 8)
    ((bm.sizeInBits / 8 + 1) - k / 8) 0 (by omega)
  rw [← hsplit] at h1
  show clampLen L (find_unset_go bm L (bm.sizeInBits / 8 + 1) (8 * 0)
    { start_idx := 0, bit_count := 8 * 0 }) = _
  rw [h1]
  obtain ⟨m, hm⟩ : ∃ m, (bm.sizeInBits / 8 + 1) - k / 8 = m + 1 :=
    ⟨(bm.sizeInBits / 8 + 1) - k / 8 - 1, by omega⟩
  rw [hm]
  by_cases hp : k % 8 = 0
  · simp only [find_unset_go, if_pos hbN, hbyte, hp, pow_zero, cache_one]
    rw [if_pos ⟨show 8 * (k / 8) ≠ 0 by omega, show 1 + 8 * (k / 8) ≠ 0 + 8 * (k / 8) by omega⟩]
    rw [clampLen_retval]
    refine congrArg (BitRange.mk 0) ?_
    omega
  · simp only [find_unset_go, if_pos hbN, hbyte, cache_pow (k % 8) (by omega) (by omega)]
    rw [if_neg (fun h => h.2 rfl), if_pos hp]
    have hr : (if 8 * (k / 8) = 0 then
        ({ start_idx := 0 + 8 * (k / 8), bit_count := k % 8 } : BitRange)
        else { start_idx := 0, bit_count := 8 * (k / 8) + k % 8 }) =
        { start_idx := 0, bit_count := k } := by
      split
      · next hh =>
          have e1 : 0 + 8 * (k / 8) = 0 := by omega
          have e2 : k % 8 = k := by omega
          rw [e1, e2]
      · next hh =>
          refine congrArg (BitRange.mk 0) ?_
          omega
    rw [hr]
    rw [if_neg (show ¬ L ≤ ({ start_idx := 0, bit_count := k } : BitRange).bit_count
      from fun hcon => by have hck : L ≤ k := hcon; omega)]
    have hstuck := go_stuck bm L k m (k / 8 + 1) (by omega) (by omega)
      (fun hNN => hz (k / 8 + 1) hNN (by omega))
    rw [Nat.mul_succ] at hstuck
    rw [hstuck, clampLen_retval]
    refine congrArg (BitRange.mk 0) ?_
    omega

/-- C4 witness at the concrete single-bit bitmap: `k = 9`, length 12. -/
theorem C4_witness :
    bmC4w.find_unset_bits 12 = { start_idx := 0, bit_count := 9 } :=
  C4_single_set_bit bmC4w 9 12 (by decide) (by decide) (by decide) (by decide) (by
    intro i h1 h2
    have h16 : bmC4w.sizeInBits = 16 := rfl
    have h0 : i = 0 := by omega
    subst h0
    decide)
